import Mathlib

/-!
# Verification of the g3c tools core (clifford/tools/g3c)

This file embeds the core of `clifford/tools/g3c/__init__.py` — grade
projection, the twiddle-root finders of Hadfield and Lasenby, object
interpolation/averaging, the rotor sandwich action and the closed-form
exponential — over a shallow model of the fixed 32-component conformal
algebra Cl(4,1) used by the library.

Multivectors are maps `Fin 32 → ℝ`.  For the algebra layer (geometric
product, reversion) the index is read as the 5-bit basis-blade mask over
the generators e1..e5 with metric signature (+,+,+,+,−); for the literal
transcription of `project_val` the index is read as the layout's
grade-sorted coefficient position (bands of sizes 1,5,10,10,5,1), exactly
as the numpy value array is laid out.  Products carry the standard
reordering sign together with the metric sign of the contracted
generators.  Floating point arithmetic is modelled by exact real
arithmetic.
-/

noncomputable section

open scoped Classical

/-- A multivector value array: 32 real coefficients. -/
abbrev MV : Type := Fin 32 → ℝ

/-- Modelled from the spec: parity of the generator transpositions needed to
merge the ascending generator list of blade mask `a` with that of blade mask
`b` (the backend's blade-product reordering sign), for the 5 generators of
the fixed algebra. -/
def swapParB (a b : Nat) : Bool :=
  (a.testBit 1 && b.testBit 0) ^^
  ((a.testBit 2 && b.testBit 0) ^^
  ((a.testBit 2 && b.testBit 1) ^^
  ((a.testBit 3 && b.testBit 0) ^^
  ((a.testBit 3 && b.testBit 1) ^^
  ((a.testBit 3 && b.testBit 2) ^^
  ((a.testBit 4 && b.testBit 0) ^^
  ((a.testBit 4 && b.testBit 1) ^^
  ((a.testBit 4 && b.testBit 2) ^^
   (a.testBit 4 && b.testBit 3)))))))))

/-- Modelled from the spec: sign parity of the product of blade masks `a` and
`b` in Cl(4,1) — reordering parity xor the metric sign of the shared
generators (only e5, bit 4, squares to −1). -/
def sgnB (a b : Nat) : Bool :=
  (swapParB a b) ^^ ((a &&& b).testBit 4)

/-- Real sign value of a parity bit: `false ↦ 1`, `true ↦ −1`. -/
def pm1 (b : Bool) : ℝ := if b then -1 else 1

/-- Bitwise xor of two blade indices, staying inside `Fin 32`. -/
def bxor (i j : Fin 32) : Fin 32 :=
  ⟨i.val ^^^ j.val, Nat.xor_lt_two_pow (n := 5) i.isLt j.isLt⟩

/-- Modelled from the spec: the backend's geometric product `gmt_func` on the
fixed 32-blade layout, as the signed xor-convolution of blade masks. -/
def gmt (x y : MV) : MV :=
  fun k => ∑ i : Fin 32, pm1 (sgnB i.val (bxor i k).val) * x i * y (bxor i k)

/-- Number of generators in a blade mask (the blade's grade). -/
def gradeOf (n : Nat) : Nat :=
  (if n.testBit 0 then 1 else 0) + (if n.testBit 1 then 1 else 0) +
  (if n.testBit 2 then 1 else 0) + (if n.testBit 3 then 1 else 0) +
  (if n.testBit 4 then 1 else 0)

/-- Reversion sign parity of a blade of mask `n`: `(−1)^(g(g−1)/2)`. -/
def revB (n : Nat) : Bool :=
  decide ((gradeOf n * (gradeOf n - 1) / 2) % 2 = 1)

/-- Modelled from the spec: the backend's reversion / versor adjoint
`adjoint_func` (grade-reversion-with-sign), diagonal in the blade basis. -/
def rev (x : MV) : MV :=
  fun k => pm1 (revB k.val) * x k

/-- The basis blade with mask `i`: coefficient 1 there, 0 elsewhere. -/
def bl (i : Fin 32) : MV :=
  fun k => if k = i then 1 else 0

/-- Transcribes `unit_scalar_mv = 1.0 + 0.0*e1`: the identity versor. -/
def unit_scalar_mv : MV := bl 0

/-- Modelled from the spec: the backend's grade projection `mv(g)` used by
`sigma(4)` — keep the coefficients of blades of grade `g`. -/
def gradeSel (x : MV) (g : Nat) : MV :=
  fun k => if gradeOf k.val = g then x k else 0

/-- Modelled from the spec: the backend's inner (contraction) product
`imt_func` — the Hestenes inner product, keeping the grade `|r−s|` part and
vanishing when either factor is a scalar. -/
def imt (x y : MV) : MV :=
  fun k => ∑ i : Fin 32,
    if gradeOf k.val = ((gradeOf i.val : ℤ) - (gradeOf (bxor i k).val : ℤ)).natAbs
        ∧ gradeOf i.val ≠ 0 ∧ gradeOf (bxor i k).val ≠ 0 then
      pm1 (sgnB i.val (bxor i k).val) * x i * y (bxor i k)
    else 0

/-- Modelled from the spec: the backend's multivector inverse used by
`1./k` — the two-sided inverse when it exists (and junk `0` otherwise; the
library raises there, and no claim touches that case). -/
def mvInv (k : MV) : MV :=
  if h : ∃ y, gmt k y = unit_scalar_mv ∧ gmt y k = unit_scalar_mv then h.choose
  else 0

/-- Modelled from the spec: the backend's `mv.normal()` — division by the
magnitude `sqrt(|(mv * ~mv)[0]|)`. -/
def normal (M : MV) : MV :=
  (Real.sqrt |gmt M (rev M) 0|)⁻¹ • M

/-- Transcribes `ninf = einf = e4 + e5` (blade masks 8 and 16). -/
def ninf_val : MV := bl 8 + bl 16

/-- Transcribes `no = -eo = 0.5*(e4 - e5)`. -/
def no_val : MV := (1 / 2 : ℝ) • (bl 8 - bl 16)

/-- Transcribes `I3 = e123` (blade mask 7). -/
def I3_val : MV := bl 7

/-- Transcribes `project_val(val, grade)`: zero array, then the grade's
contiguous band of the grade-sorted layout copied in. -/
def project_val (val : Fin 32 → ℝ) (grade : ℤ) : Fin 32 → ℝ :=
  fun k =>
    if grade = 0 then (if k.val = 0 then val k else 0)
    else if grade = 1 then (if 1 ≤ k.val ∧ k.val < 6 then val k else 0)
    else if grade = 2 then (if 6 ≤ k.val ∧ k.val < 16 then val k else 0)
    else if grade = 3 then (if 16 ≤ k.val ∧ k.val < 26 then val k else 0)
    else if grade = 4 then (if 26 ≤ k.val ∧ k.val < 31 then val k else 0)
    else if grade = 5 then (if k.val = 31 then val k else 0)
    else 0

/-- Membership of coefficient position `k` in the band of grade `g`, per the
spec's fixed band table of sizes [1,5,10,10,5,1]. -/
def inBand (g : ℤ) (k : Fin 32) : Prop :=
  (g = 0 ∧ k.val = 0) ∨ (g = 1 ∧ 1 ≤ k.val ∧ k.val < 6) ∨
  (g = 2 ∧ 6 ≤ k.val ∧ k.val < 16) ∨ (g = 3 ∧ 16 ≤ k.val ∧ k.val < 26) ∨
  (g = 4 ∧ 26 ≤ k.val ∧ k.val < 31) ∨ (g = 5 ∧ k.val = 31)

/-- Transcribes `dorst_norm_val(sigma) = sqrt(sigma[0]**2 - (sigma(4)**2)[0])`. -/
def dorst_norm_val (sigma : MV) : ℝ :=
  Real.sqrt (sigma 0 ^ 2 - gmt (gradeSel sigma 4) (gradeSel sigma 4) 0)

/-- Transcribes `check_sigma_for_positive_root(sigma)`. -/
def check_sigma_for_positive_root (sigma : MV) : Prop :=
  sigma 0 + dorst_norm_val sigma > 0

/-- Transcribes `check_sigma_for_negative_root(sigma)`. -/
def check_sigma_for_negative_root (sigma : MV) : Prop :=
  sigma 0 - dorst_norm_val sigma > 0

/-- Transcribes `check_infinite_roots(sigma)` (threshold `0.0000000001`). -/
def check_infinite_roots (sigma : MV) : Prop :=
  sigma 0 + dorst_norm_val sigma < 1e-10

/-- Transcribes `positive_root(sigma) = (sigma + norm_s) / (sqrt(2) * sqrt(sigma[0] + norm_s))`. -/
def positive_root (sigma : MV) : MV :=
  (Real.sqrt 2 * Real.sqrt (sigma 0 + dorst_norm_val sigma))⁻¹ •
    (sigma + dorst_norm_val sigma • unit_scalar_mv)

/-- Transcribes `negative_root(sigma) = (sigma - norm_s) / (sqrt(2) * sqrt(sigma[0] - norm_s))`. -/
def negative_root (sigma : MV) : MV :=
  (Real.sqrt 2 * Real.sqrt (sigma 0 - dorst_norm_val sigma))⁻¹ •
    (sigma - dorst_norm_val sigma • unit_scalar_mv)

/-- The classification intermediate `sigma = -(C * ~C)` of `neg_twiddle_root`. -/
def negSigma (C : MV) : MV := -(gmt C (rev C))

/-- The classification intermediate `sigma = (C * ~C)` of `pos_twiddle_root`. -/
def posSigma (C : MV) : MV := gmt C (rev C)

/-- Transcribes `neg_twiddle_root(C)`: the case chain over `negSigma C`;
`none` models the `ValueError('No root exists')`. -/
def neg_twiddle_root (C : MV) : Option (List MV) :=
  if check_sigma_for_positive_root (negSigma C) then
    some [normal (gmt (mvInv (positive_root (negSigma C))) C)]
  else if check_sigma_for_negative_root (negSigma C) then
    some [normal (gmt (mvInv (positive_root (negSigma C))) C),
          normal (gmt (mvInv (negative_root (negSigma C))) C)]
  else if check_infinite_roots (negSigma C) then
    some [normal C]
  else none

/-- Transcribes `pos_twiddle_root(C)`: the case chain over `posSigma C`. -/
def pos_twiddle_root (C : MV) : Option (List MV) :=
  if check_sigma_for_positive_root (posSigma C) then
    some [normal (gmt (mvInv (positive_root (posSigma C))) C)]
  else if check_sigma_for_negative_root (posSigma C) then
    some [normal (gmt (mvInv (positive_root (posSigma C))) C),
          normal (gmt (mvInv (negative_root (posSigma C))) C)]
  else if check_infinite_roots (posSigma C) then
    some [normal C]
  else none

/-- Transcribes `interp_objects_root(C1, C2, alpha)`:
`C = alpha*C1 + (1-alpha)*C2`, then `(neg_twiddle_root(C)[0]).normal()`. -/
def interp_objects_root (C1 C2 : MV) (alpha : ℝ) : Option MV :=
  ((neg_twiddle_root (alpha • C1 + (1 - alpha) • C2)).bind List.head?).map normal

/-- Transcribes `average_objects(obj_list)`: the arithmetic mean, then
`(neg_twiddle_root(C)[0]).normal()`. -/
def average_objects (obj_list : List MV) : Option MV :=
  ((neg_twiddle_root (((obj_list.length : ℝ))⁻¹ • obj_list.sum)).bind List.head?).map
    normal

/-- Transcribes `rotor_between_objects(C1, C2)`. -/
def rotor_between_objects (C1 C2 : MV) : Option MV :=
  if gmt C1 C1 0 > 0 then
    (pos_twiddle_root (unit_scalar_mv + gmt C2 C1)).bind List.head?
  else
    some (normal (unit_scalar_mv - gmt C2 C1))

/-- Transcribes `apply_rotor(mv_in, rotor) = gmt(rotor, gmt(mv, adjoint(rotor)))`. -/
def apply_rotor (mv_in rotor : MV) : MV :=
  gmt rotor (gmt mv_in (rev rotor))

/-- Transcribes `mult_with_ninf(mv) = gmt_func(mv, ninf_val)`. -/
def mult_with_ninf (mv : MV) : MV := gmt mv ninf_val

/-- Modelled from the spec: numpy's normalized `sinc`, `sin(pi x)/(pi x)`
with value 1 at 0, used for the `phi → 0` guard. -/
def npSinc (x : ℝ) : ℝ :=
  if x = 0 then 1 else Real.sin (Real.pi * x) / (Real.pi * x)

/-- Machine epsilon of IEEE double precision, `np.finfo(float).eps = 2^(-52)`. -/
def machine_eps : ℝ := (2 : ℝ) ^ (-52 : ℤ)

/-- Transcribes `val_exp(B_val)`: the closed-form exponential body. -/
def val_exp (B : MV) : MV :=
  let t := imt B no_val
  let phiP := B - mult_with_ninf t
  let phi := Real.sqrt (-(gmt phiP phiP 0))
  let P := phi⁻¹ • phiP
  let P_n := gmt P I3_val
  let t_nor := gmt (imt t P_n) P_n
  let t_par := t - t_nor
  let coef := Real.cos phi • unit_scalar_mv + Real.sin phi • P
  coef + gmt coef (mult_with_ninf t_nor) + npSinc (phi / Real.pi) • mult_with_ninf t_par

/-- Transcribes `ga_exp(B)`: identity versor below machine epsilon, else the
closed form. -/
def ga_exp (B : MV) : MV :=
  if (∑ k : Fin 32, |B k|) < machine_eps then unit_scalar_mv else val_exp B

/-- The case-routing contract of a twiddle-root finder result `res` for the
classification intermediate `σ` of input `C`: cases tried in the fixed order
positive / negative / infinite / error with the first match winning, one root
in Case A, the ordered positive-then-negative branch pair in Case B, the
normalized representative in Case C, and 1- or 2-element output lists. -/
def CaseRouting (res : Option (List MV)) (σ C : MV) : Prop :=
  (check_sigma_for_positive_root σ → ∃ r, res = some [r]) ∧
  (¬check_sigma_for_positive_root σ → check_sigma_for_negative_root σ →
    res = some [normal (gmt (mvInv (positive_root σ)) C),
                normal (gmt (mvInv (negative_root σ)) C)]) ∧
  (¬check_sigma_for_positive_root σ → ¬check_sigma_for_negative_root σ →
    check_infinite_roots σ → res = some [normal C]) ∧
  (¬check_sigma_for_positive_root σ → ¬check_sigma_for_negative_root σ →
    ¬check_infinite_roots σ → res = none) ∧
  (∀ l, res = some l → l.length = 1 ∨ l.length = 2)

/-- Modelled from the spec: the Case A root formula as the spec words it,
`(C + dorst_norm) / (sqrt(2)*sqrt(s0 + dorst_norm))`, normalized. -/
def spec_case_a_root (C σ : MV) : MV :=
  normal ((Real.sqrt 2 * Real.sqrt (σ 0 + dorst_norm_val σ))⁻¹ •
    (C + dorst_norm_val σ • unit_scalar_mv))

/-- Modelled from the spec: `rotor_between(C1, C2)` as the spec words it —
first positive-twiddle root of `1 + C2*C1` when the scalar self-product of
`C1` is positive, otherwise `(1 - C2*C1)` normalized directly. -/
def rotor_between_spec (C1 C2 : MV) : Option MV :=
  if 0 < gmt C1 C1 0 then
    (pos_twiddle_root (unit_scalar_mv + gmt C2 C1)).bind List.head?
  else
    some (normal (unit_scalar_mv - gmt C2 C1))

/-! ## Sign and parity lemmas -/

theorem pm1_mul (a b : Bool) : pm1 a * pm1 b = pm1 (a ^^ b) := by
  cases a <;> cases b <;> norm_num [pm1]

theorem pm1_false : pm1 false = 1 := rfl

theorem pm1_true : pm1 true = -1 := rfl

theorem pm1_ne_zero (a : Bool) : pm1 a ≠ 0 := by
  cases a <;> norm_num [pm1]

theorem pm1_xor_eq {a b c d : Bool} (h : (a ^^ b) = (c ^^ d)) :
    pm1 a * pm1 b = pm1 c * pm1 d := by
  rw [pm1_mul, pm1_mul, h]

theorem sgnB_zero_left (n : Nat) : sgnB 0 n = false := by
  simp [sgnB, swapParB, Nat.zero_testBit, Nat.zero_and]

theorem sgnB_zero_right (n : Nat) : sgnB n 0 = false := by
  simp [sgnB, swapParB, Nat.zero_testBit, Nat.and_zero]

theorem sgn_cocycle (a b c : Nat) :
    ((sgnB a b) ^^ (sgnB (a ^^^ b) c)) = ((sgnB a (b ^^^ c)) ^^ (sgnB b c)) := by
  simp only [sgnB, swapParB, Nat.testBit_xor, Nat.testBit_and]
  generalize a.testBit 0 = a0
  generalize a.testBit 1 = a1
  generalize a.testBit 2 = a2
  generalize a.testBit 3 = a3
  generalize a.testBit 4 = a4
  generalize b.testBit 0 = b0
  generalize b.testBit 1 = b1
  generalize b.testBit 2 = b2
  generalize b.testBit 3 = b3
  generalize b.testBit 4 = b4
  generalize c.testBit 0 = c0
  generalize c.testBit 1 = c1
  generalize c.testBit 2 = c2
  generalize c.testBit 3 = c3
  generalize c.testBit 4 = c4
  revert a0 a1 a2 a3 a4 b0 b1 b2 b3 b4 c0 c1 c2 c3 c4
  decide

theorem rev_sign_identity : ∀ i b : Fin 32,
    ((revB (i.val ^^^ b.val)) ^^ (sgnB i.val b.val)) =
      ((sgnB b.val i.val) ^^ ((revB b.val) ^^ (revB i.val))) := by decide

/-! ## Blade-index xor lemmas -/

theorem bxor_val (i j : Fin 32) : (bxor i j).val = i.val ^^^ j.val := rfl

theorem bxor_zero_left (k : Fin 32) : bxor 0 k = k := by
  apply Fin.ext; simp [bxor]

theorem bxor_self (i : Fin 32) : bxor i i = 0 := by
  apply Fin.ext; simp [bxor]

theorem bxor_cancel_left (i k : Fin 32) : bxor i (bxor i k) = k := by
  apply Fin.ext
  simp only [bxor]
  rw [← Nat.xor_assoc, Nat.xor_self, Nat.zero_xor]

theorem bxor_cancel_right (i k : Fin 32) : bxor (bxor i k) k = i := by
  apply Fin.ext
  simp only [bxor]
  rw [Nat.xor_assoc, Nat.xor_self, Nat.xor_zero]

theorem bxor_left_involutive (i : Fin 32) :
    Function.Involutive (fun j => bxor i j) := fun j => bxor_cancel_left i j

theorem bxor_right_involutive (k : Fin 32) :
    Function.Involutive (fun j => bxor j k) := fun j => bxor_cancel_right j k

theorem bxor_triple (i j k : Fin 32) : bxor (bxor i j) (bxor i k) = bxor j k := by
  apply Fin.ext
  simp only [bxor]
  rw [show i.val ^^^ j.val ^^^ (i.val ^^^ k.val) =
        i.val ^^^ i.val ^^^ (j.val ^^^ k.val) by
      rw [Nat.xor_assoc, Nat.xor_assoc]
      congr 1
      rw [← Nat.xor_assoc, ← Nat.xor_assoc, Nat.xor_comm j.val i.val]]
  rw [Nat.xor_self, Nat.zero_xor]

/-! ## Geometric product: bilinearity and blade products -/

theorem gmt_smul_left (c : ℝ) (x y : MV) : gmt (c • x) y = c • gmt x y := by
  funext k
  simp only [gmt, Pi.smul_apply, smul_eq_mul, Finset.mul_sum]
  exact Finset.sum_congr rfl fun i _ => by ring

theorem gmt_smul_right (c : ℝ) (x y : MV) : gmt x (c • y) = c • gmt x y := by
  funext k
  simp only [gmt, Pi.smul_apply, smul_eq_mul, Finset.mul_sum]
  exact Finset.sum_congr rfl fun i _ => by ring

theorem gmt_add_left (x y z : MV) : gmt (x + y) z = gmt x z + gmt y z := by
  funext k
  simp only [gmt, Pi.add_apply, ← Finset.sum_add_distrib]
  exact Finset.sum_congr rfl fun i _ => by ring

theorem gmt_add_right (x y z : MV) : gmt x (y + z) = gmt x y + gmt x z := by
  funext k
  simp only [gmt, Pi.add_apply, ← Finset.sum_add_distrib]
  exact Finset.sum_congr rfl fun i _ => by ring

theorem gmt_zero_left (y : MV) : gmt 0 y = 0 := by
  funext k
  simp [gmt]

theorem gmt_bl_bl (i j : Fin 32) :
    gmt (bl i) (bl j) = pm1 (sgnB i.val j.val) • bl (bxor i j) := by
  funext k
  simp only [gmt, bl, Pi.smul_apply, smul_eq_mul]
  rw [Finset.sum_eq_single i]
  · by_cases h : k = bxor i j
    · subst h
      rw [bxor_cancel_left]
      simp
    · have hne : bxor i k ≠ j := by
        intro hc
        exact h (by rw [← hc, bxor_cancel_left])
      simp [hne, h]
  · intro b _ hb
    simp [hb]
  · intro h
    exact absurd (Finset.mem_univ i) h

theorem gmt_one_left (x : MV) : gmt unit_scalar_mv x = x := by
  funext k
  simp only [gmt, unit_scalar_mv, bl]
  rw [Finset.sum_eq_single (0 : Fin 32)]
  · rw [bxor_zero_left]
    simp [sgnB_zero_left, pm1]
  · intro b _ hb
    simp [hb]
  · intro h
    exact absurd (Finset.mem_univ _) h

theorem gmt_one_right (x : MV) : gmt x unit_scalar_mv = x := by
  funext k
  simp only [gmt, unit_scalar_mv, bl]
  rw [Finset.sum_eq_single k]
  · rw [bxor_self]
    simp [sgnB_zero_right, pm1]
  · intro b _ hb
    have hne : bxor b k ≠ 0 := by
      intro hc
      apply hb
      have h2 := congrArg (fun t => bxor t k) hc
      simpa [bxor_cancel_right, bxor_zero_left] using h2
    simp [hne]
  · intro h
    exact absurd (Finset.mem_univ _) h

/-! ## Associativity and reversion anti-automorphism -/

theorem gmt_assoc (x y z : MV) : gmt (gmt x y) z = gmt x (gmt y z) := by
  funext k
  simp only [gmt]
  have L : (∑ j : Fin 32, pm1 (sgnB j.val (bxor j k).val) *
        (∑ i : Fin 32, pm1 (sgnB i.val (bxor i j).val) * x i * y (bxor i j)) *
        z (bxor j k)) =
      ∑ i : Fin 32, ∑ j : Fin 32, pm1 (sgnB j.val (bxor j k).val) *
        (pm1 (sgnB i.val (bxor i j).val) * x i * y (bxor i j)) * z (bxor j k) := by
    rw [← Finset.sum_comm]
    exact Finset.sum_congr rfl fun j _ => by rw [Finset.mul_sum, Finset.sum_mul]
  have R : (∑ i : Fin 32, pm1 (sgnB i.val (bxor i k).val) * x i *
        (∑ m : Fin 32, pm1 (sgnB m.val (bxor m (bxor i k)).val) * y m *
          z (bxor m (bxor i k)))) =
      ∑ i : Fin 32, ∑ j : Fin 32, pm1 (sgnB i.val (bxor i k).val) * x i *
        (pm1 (sgnB (bxor i j).val (bxor (bxor i j) (bxor i k)).val) * y (bxor i j) *
          z (bxor (bxor i j) (bxor i k))) := by
    refine Finset.sum_congr rfl fun i _ => ?_
    rw [Finset.mul_sum]
    exact (Fintype.sum_bijective (fun j => bxor i j) (bxor_left_involutive i).bijective
      _ _ (fun j => rfl)).symm
  rw [L, R]
  refine Finset.sum_congr rfl fun i _ => Finset.sum_congr rfl fun j _ => ?_
  rw [bxor_triple i j k]
  have h1 : i.val ^^^ (i.val ^^^ j.val) = j.val := by
    rw [← Nat.xor_assoc, Nat.xor_self, Nat.zero_xor]
  have h2 : (i.val ^^^ j.val) ^^^ (j.val ^^^ k.val) = i.val ^^^ k.val := by
    rw [Nat.xor_assoc, ← Nat.xor_assoc j.val, Nat.xor_self, Nat.zero_xor]
  have hs := sgn_cocycle i.val (i.val ^^^ j.val) (j.val ^^^ k.val)
  rw [h1, h2] at hs
  have key : pm1 (sgnB j.val (bxor j k).val) * pm1 (sgnB i.val (bxor i j).val) =
      pm1 (sgnB i.val (bxor i k).val) * pm1 (sgnB (bxor i j).val (bxor j k).val) := by
    apply pm1_xor_eq
    rw [Bool.xor_comm]
    exact hs
  linear_combination (x i * y (bxor i j) * z (bxor j k)) * key

theorem rev_gmt (x y : MV) : rev (gmt x y) = gmt (rev y) (rev x) := by
  funext k
  simp only [rev, gmt]
  rw [Finset.mul_sum]
  have R : (∑ i : Fin 32, pm1 (sgnB i.val (bxor i k).val) *
        (pm1 (revB i.val) * y i) * (pm1 (revB (bxor i k).val) * x (bxor i k))) =
      ∑ i : Fin 32, pm1 (sgnB (bxor i k).val (bxor (bxor i k) k).val) *
        (pm1 (revB (bxor i k).val) * y (bxor i k)) *
        (pm1 (revB (bxor (bxor i k) k).val) * x (bxor (bxor i k) k)) :=
    (Fintype.sum_bijective (fun i => bxor i k) (bxor_right_involutive k).bijective
      _ _ (fun i => rfl)).symm
  rw [R]
  refine Finset.sum_congr rfl fun i _ => ?_
  rw [bxor_cancel_right]
  have h1 : i.val ^^^ (i.val ^^^ k.val) = k.val := by
    rw [← Nat.xor_assoc, Nat.xor_self, Nat.zero_xor]
  have ri := rev_sign_identity i (bxor i k)
  rw [show i.val ^^^ (bxor i k).val = k.val from h1] at ri
  have key : pm1 (revB k.val) * pm1 (sgnB i.val (bxor i k).val) =
      pm1 (sgnB (bxor i k).val i.val) *
        (pm1 (revB (bxor i k).val) * pm1 (revB i.val)) := by
    rw [pm1_mul (revB (bxor i k).val)]
    exact pm1_xor_eq ri
  linear_combination (x i * y (bxor i k)) * key

/-! ## Reversion linearity, inverse, normalization -/

theorem rev_smul (c : ℝ) (x : MV) : rev (c • x) = c • rev x := by
  funext k
  simp only [rev, Pi.smul_apply, smul_eq_mul]
  ring

theorem rev_add (x y : MV) : rev (x + y) = rev x + rev y := by
  funext k
  simp only [rev, Pi.add_apply]
  ring

theorem rev_bl (i : Fin 32) : rev (bl i) = pm1 (revB i.val) • bl i := by
  funext k
  simp only [rev, bl, Pi.smul_apply, smul_eq_mul]
  by_cases h : k = i
  · subst h; simp
  · simp [h]

theorem mvInv_eq {k y : MV} (h1 : gmt k y = unit_scalar_mv)
    (h2 : gmt y k = unit_scalar_mv) : mvInv k = y := by
  have hex : ∃ z, gmt k z = unit_scalar_mv ∧ gmt z k = unit_scalar_mv := ⟨y, h1, h2⟩
  rw [mvInv, dif_pos hex]
  obtain ⟨hz1, _⟩ := hex.choose_spec
  have h3 : gmt y (gmt k hex.choose) = y := by rw [hz1, gmt_one_right]
  rw [← gmt_assoc, h2, gmt_one_left] at h3
  exact h3

theorem mvInv_smul_unit {c : ℝ} (hc : c ≠ 0) :
    mvInv (c • unit_scalar_mv) = c⁻¹ • unit_scalar_mv := by
  apply mvInv_eq
  · rw [gmt_smul_left, gmt_smul_right, gmt_one_left, smul_smul,
      mul_inv_cancel₀ hc, one_smul]
  · rw [gmt_smul_left, gmt_smul_right, gmt_one_left, smul_smul,
      inv_mul_cancel₀ hc, one_smul]

theorem gmt_rev_self_smul (c : ℝ) (X : MV) :
    gmt (c • X) (rev (c • X)) = (c * c) • gmt X (rev X) := by
  rw [rev_smul, gmt_smul_left, gmt_smul_right, smul_smul]

theorem normal_smul_pos {c : ℝ} (hc : 0 < c) (X : MV) : normal (c • X) = normal X := by
  unfold normal
  have h0 : gmt (c • X) (rev (c • X)) 0 = (c * c) * gmt X (rev X) 0 := by
    rw [gmt_rev_self_smul]
    simp [smul_eq_mul]
  rw [h0, abs_mul, abs_of_nonneg (mul_self_nonneg c),
    Real.sqrt_mul (mul_self_nonneg c), Real.sqrt_mul_self hc.le,
    mul_inv, smul_smul]
  congr 1
  rw [mul_comm, ← mul_assoc, mul_inv_cancel₀ (ne_of_gt hc), one_mul]

theorem normal_normal {X : MV} (hX : gmt X (rev X) 0 ≠ 0) :
    normal (normal X) = normal X := by
  have hpos : 0 < Real.sqrt |gmt X (rev X) 0| :=
    Real.sqrt_pos.mpr (abs_pos.mpr hX)
  have h1 : normal X = (Real.sqrt |gmt X (rev X) 0|)⁻¹ • X := rfl
  rw [h1, normal_smul_pos (inv_pos.mpr hpos)]
  exact h1

/-! ## Grade selection and the Dorst norm of scalar sigmas -/

theorem gradeSel_smul (c : ℝ) (x : MV) (g : Nat) :
    gradeSel (c • x) g = c • gradeSel x g := by
  funext k
  by_cases h : gradeOf k.val = g <;> simp [gradeSel, h]

theorem gradeSel_unit_four : gradeSel unit_scalar_mv 4 = 0 := by
  funext k
  simp only [gradeSel, unit_scalar_mv, bl]
  by_cases h : gradeOf k.val = 4
  · have hk : ¬(k = 0) := by
      intro h0
      rw [h0] at h
      exact absurd h (by decide)
    simp [h, hk]
  · simp [h]

theorem smul_unit_apply_zero (c : ℝ) : (c • unit_scalar_mv) 0 = c := by
  simp [unit_scalar_mv, bl]

theorem dorst_smul_unit (c : ℝ) : dorst_norm_val (c • unit_scalar_mv) = |c| := by
  unfold dorst_norm_val
  rw [gradeSel_smul, gradeSel_unit_four, smul_zero, gmt_zero_left,
    smul_unit_apply_zero]
  simp only [Pi.zero_apply, sub_zero]
  exact Real.sqrt_sq_eq_abs c

/-! ## Concrete blade computations -/

theorem rev_unit : rev unit_scalar_mv = unit_scalar_mv := by
  rw [unit_scalar_mv, rev_bl]
  rw [show revB (0 : Fin 32).val = false from by decide, pm1_false, one_smul]

theorem rev_bl_16 : rev (bl 16) = bl 16 := by
  rw [rev_bl]
  rw [show revB (16 : Fin 32).val = false from by decide, pm1_false, one_smul]

theorem gmt_bl16_bl16 : gmt (bl 16) (bl 16) = (-1 : ℝ) • unit_scalar_mv := by
  rw [gmt_bl_bl]
  rw [show sgnB (16 : Fin 32).val (16 : Fin 32).val = true from by decide,
    show bxor (16 : Fin 32) 16 = 0 from by decide, pm1_true]
  rfl

theorem gmt_rev_smul_bl16 (c : ℝ) :
    gmt (c • bl 16) (rev (c • bl 16)) = (-(c * c)) • unit_scalar_mv := by
  rw [rev_smul, rev_bl_16, gmt_smul_left, gmt_smul_right, gmt_bl16_bl16,
    smul_smul, smul_smul]
  congr 1
  ring

theorem negSigma_smul_bl16 (c : ℝ) :
    negSigma (c • bl 16) = (c * c) • unit_scalar_mv := by
  unfold negSigma
  rw [gmt_rev_smul_bl16, ← neg_smul, neg_neg]

theorem normal_bl_16 : normal (bl 16) = bl 16 := by
  unfold normal
  rw [rev_bl_16, gmt_bl16_bl16, smul_unit_apply_zero]
  norm_num

/-! ## Scalar-sigma behaviour of the root finder -/

theorem check_pos_scalar {c : ℝ} (hc : 0 < c) :
    check_sigma_for_positive_root (c • unit_scalar_mv) := by
  unfold check_sigma_for_positive_root
  rw [dorst_smul_unit, smul_unit_apply_zero, abs_of_pos hc]
  linarith

theorem checks_scalar_nonpos {c : ℝ} (hc : c ≤ 0) :
    ¬check_sigma_for_positive_root (c • unit_scalar_mv) ∧
    ¬check_sigma_for_negative_root (c • unit_scalar_mv) ∧
    check_infinite_roots (c • unit_scalar_mv) := by
  unfold check_sigma_for_positive_root check_sigma_for_negative_root
    check_infinite_roots
  rw [dorst_smul_unit, smul_unit_apply_zero, abs_of_nonpos hc]
  refine ⟨by simp, by intro h; linarith, by norm_num⟩

theorem sqrt_four : Real.sqrt 4 = 2 := by
  rw [show (4 : ℝ) = 2 ^ 2 by norm_num, Real.sqrt_sq (by norm_num : (0:ℝ) ≤ 2)]

theorem positive_root_scalar {c : ℝ} (hc : 0 < c) :
    positive_root (c • unit_scalar_mv) = Real.sqrt c • unit_scalar_mv := by
  unfold positive_root
  rw [dorst_smul_unit, smul_unit_apply_zero, abs_of_pos hc]
  rw [show (c • unit_scalar_mv + c • unit_scalar_mv) = (2 * c) • unit_scalar_mv from by
    rw [← add_smul]; congr 1; ring]
  rw [smul_smul]
  congr 1
  have h2 : Real.sqrt 2 * Real.sqrt (c + c) = 2 * Real.sqrt c := by
    rw [← Real.sqrt_mul (by norm_num : (0:ℝ) ≤ 2),
      show (2 * (c + c) : ℝ) = 4 * c by ring,
      Real.sqrt_mul (by norm_num : (0:ℝ) ≤ 4), sqrt_four]
  rw [h2]
  have hsq : Real.sqrt c * Real.sqrt c = c := Real.mul_self_sqrt hc.le
  have hs0 : Real.sqrt c ≠ 0 := ne_of_gt (Real.sqrt_pos.mpr hc)
  field_simp
  linear_combination (-2 : ℝ) * hsq

theorem ntr_scalar_sigma {C : MV} {mu : ℝ} (h : gmt C (rev C) = mu • unit_scalar_mv)
    (hmu : mu ≠ 0) :
    ∃ r l, neg_twiddle_root C = some (r :: l) ∧ normal r = normal C := by
  have hσ : negSigma C = (-mu) • unit_scalar_mv := by
    unfold negSigma
    rw [h, ← neg_smul]
  have hC0 : gmt C (rev C) 0 ≠ 0 := by
    rw [h, smul_unit_apply_zero]
    exact hmu
  rcases lt_or_gt_of_ne hmu with hneg | hpos
  · have hcpos : 0 < -mu := by linarith
    have hpos1 : check_sigma_for_positive_root (negSigma C) := by
      rw [hσ]
      exact check_pos_scalar hcpos
    refine ⟨_, [], by rw [neg_twiddle_root, if_pos hpos1], ?_⟩
    have e1 : positive_root (negSigma C) = Real.sqrt (-mu) • unit_scalar_mv := by
      rw [hσ]
      exact positive_root_scalar hcpos
    have hsq : Real.sqrt (-mu) ≠ 0 := ne_of_gt (Real.sqrt_pos.mpr hcpos)
    rw [e1, mvInv_smul_unit hsq, gmt_smul_left, gmt_one_left,
      normal_smul_pos (inv_pos.mpr (Real.sqrt_pos.mpr hcpos))]
    exact normal_normal hC0
  · have hcnp : -mu ≤ 0 := by linarith
    have hchk := checks_scalar_nonpos hcnp
    have h1 : ¬check_sigma_for_positive_root (negSigma C) := by
      rw [hσ]; exact hchk.1
    have h2 : ¬check_sigma_for_negative_root (negSigma C) := by
      rw [hσ]; exact hchk.2.1
    have h3 : check_infinite_roots (negSigma C) := by
      rw [hσ]; exact hchk.2.2
    refine ⟨normal C, [], by rw [neg_twiddle_root, if_neg h1, if_neg h2, if_pos h3], ?_⟩
    exact normal_normal hC0

/-! ## Case routing of the twiddle-root chain -/

theorem caseRouting_ite (C σ : MV) :
    CaseRouting
      (if check_sigma_for_positive_root σ then
        some [normal (gmt (mvInv (positive_root σ)) C)]
      else if check_sigma_for_negative_root σ then
        some [normal (gmt (mvInv (positive_root σ)) C),
              normal (gmt (mvInv (negative_root σ)) C)]
      else if check_infinite_roots σ then some [normal C]
      else none) σ C := by
  unfold CaseRouting
  split_ifs with h1 h2 h3
  · refine ⟨fun _ => ⟨_, rfl⟩, fun hn _ => (hn h1).elim, fun hn _ _ => (hn h1).elim,
      fun hn _ _ => (hn h1).elim, fun l hl => ?_⟩
    obtain rfl := Option.some.inj hl
    left; rfl
  · refine ⟨fun hp => (h1 hp).elim, fun _ _ => rfl, fun _ hn _ => (hn h2).elim,
      fun _ hn _ => (hn h2).elim, fun l hl => ?_⟩
    obtain rfl := Option.some.inj hl
    right; rfl
  · refine ⟨fun hp => (h1 hp).elim, fun _ hneg => (h2 hneg).elim, fun _ _ _ => rfl,
      fun _ _ hni => (hni h3).elim, fun l hl => ?_⟩
    obtain rfl := Option.some.inj hl
    left; rfl
  · refine ⟨fun hp => (h1 hp).elim, fun _ hneg => (h2 hneg).elim,
      fun _ _ hinf => (h3 hinf).elim, fun _ _ _ => rfl, fun l hl => ?_⟩
    cases hl

theorem noRoot_iff (C σ : MV) :
    ((if check_sigma_for_positive_root σ then
        some [normal (gmt (mvInv (positive_root σ)) C)]
      else if check_sigma_for_negative_root σ then
        some [normal (gmt (mvInv (positive_root σ)) C),
              normal (gmt (mvInv (negative_root σ)) C)]
      else if check_infinite_roots σ then some [normal C]
      else none) = none ↔
      σ 0 + dorst_norm_val σ ≤ 0 ∧ σ 0 - dorst_norm_val σ ≤ 0 ∧
        (1e-10 : ℝ) ≤ σ 0 + dorst_norm_val σ) := by
  split_ifs with h1 h2 h3
  · refine iff_of_false (by simp) ?_
    rintro ⟨ha, _, _⟩
    unfold check_sigma_for_positive_root at h1
    linarith
  · refine iff_of_false (by simp) ?_
    rintro ⟨_, hb, _⟩
    unfold check_sigma_for_negative_root at h2
    linarith
  · refine iff_of_false (by simp) ?_
    rintro ⟨_, _, hc⟩
    unfold check_infinite_roots at h3
    linarith
  · unfold check_sigma_for_positive_root at h1
    unfold check_sigma_for_negative_root at h2
    unfold check_infinite_roots at h3
    exact iff_of_true rfl ⟨not_lt.mp h1, not_lt.mp h2, not_lt.mp h3⟩

/-! ## Concrete evaluation of the root finder at 2*e5 -/

theorem unit_apply_zero : unit_scalar_mv (0 : Fin 32) = 1 := by
  rw [unit_scalar_mv, bl, if_pos rfl]

theorem bl16_apply_zero : bl 16 (0 : Fin 32) = 0 := by
  rw [bl, if_neg (by decide)]

theorem ntr_two_bl16 : neg_twiddle_root ((2 : ℝ) • bl 16) = some [bl 16] := by
  have hσ : negSigma ((2 : ℝ) • bl 16) = (4 : ℝ) • unit_scalar_mv := by
    rw [negSigma_smul_bl16]
    norm_num
  have hp : check_sigma_for_positive_root (negSigma ((2 : ℝ) • bl 16)) := by
    rw [hσ]
    exact check_pos_scalar (by norm_num)
  rw [neg_twiddle_root, if_pos hp]
  congr 1
  rw [hσ, positive_root_scalar (by norm_num : (0:ℝ) < 4), sqrt_four,
    mvInv_smul_unit (by norm_num : (2:ℝ) ≠ 0), gmt_smul_left, gmt_one_left,
    smul_smul, show ((2:ℝ)⁻¹ * 2) = 1 by norm_num, one_smul, normal_bl_16]

theorem specA_four_unit_pos :
    0 < spec_case_a_root ((2 : ℝ) • bl 16) ((4 : ℝ) • unit_scalar_mv) 0 := by
  unfold spec_case_a_root
  rw [dorst_smul_unit, smul_unit_apply_zero, show |(4:ℝ)| = 4 by norm_num]
  rw [show Real.sqrt 2 * Real.sqrt ((4:ℝ) + 4) = 4 from by
    rw [← Real.sqrt_mul (by norm_num : (0:ℝ) ≤ 2), show (2 * ((4:ℝ) + 4)) = 16 by norm_num,
      show (16:ℝ) = 4 ^ 2 by norm_num, Real.sqrt_sq (by norm_num : (0:ℝ) ≤ 4)]]
  rw [show ((4:ℝ)⁻¹ • (((2:ℝ) • bl 16) + (4:ℝ) • unit_scalar_mv)) =
      unit_scalar_mv + (2⁻¹ : ℝ) • bl 16 from by module]
  have hrev : rev (unit_scalar_mv + (2⁻¹ : ℝ) • bl 16) =
      unit_scalar_mv + (2⁻¹ : ℝ) • bl 16 := by
    rw [rev_add, rev_unit, rev_smul, rev_bl_16]
  have hg : gmt (unit_scalar_mv + (2⁻¹ : ℝ) • bl 16)
      (rev (unit_scalar_mv + (2⁻¹ : ℝ) • bl 16)) 0 = 3 / 4 := by
    rw [hrev, gmt_add_left, gmt_one_left, gmt_add_right, gmt_one_right,
      gmt_smul_left, gmt_smul_right, gmt_bl16_bl16]
    simp only [Pi.add_apply, Pi.smul_apply, smul_eq_mul, unit_apply_zero,
      bl16_apply_zero]
    norm_num
  unfold normal
  rw [hg]
  simp only [Pi.smul_apply, Pi.add_apply, smul_eq_mul, unit_apply_zero,
    bl16_apply_zero]
  have hs : 0 < Real.sqrt |(3 / 4 : ℝ)| := by
    rw [show |(3/4 : ℝ)| = 3/4 by norm_num]
    exact Real.sqrt_pos.mpr (by norm_num)
  have : 0 < (Real.sqrt |(3 / 4 : ℝ)|)⁻¹ := inv_pos.mpr hs
  nlinarith

/-! ## Claim theorems -/

/-- C1: for every combined object C given to the twiddle-root finders
(`neg_twiddle_root` and `pos_twiddle_root`), the case conditions on sigma are
evaluated in the fixed order A (`s0 + dorst_norm > 0`), B
(`s0 - dorst_norm > 0`), C (`s0 + dorst_norm < 1e-10`), else-error, with the
first matching case winning; Case A returns exactly one root, Case B returns
exactly two roots ordered [positive-branch root, negative-branch root], Case C
returns the single representative `C` normalized, and in every non-error case
the output is an ordered non-empty list of 1 or 2 elements. -/
theorem claim1_case_routing (C : MV) :
    CaseRouting (neg_twiddle_root C) (negSigma C) C ∧
    CaseRouting (pos_twiddle_root C) (posSigma C) C :=
  ⟨caseRouting_ite C (negSigma C), caseRouting_ite C (posSigma C)⟩

/-- Witness for C1: at the concrete input `2*e5`, Case A of
`neg_twiddle_root` fires and exactly one root is returned. -/
theorem claim1_case_routing_witness :
    check_sigma_for_positive_root (negSigma ((2 : ℝ) • bl 16)) ∧
    ∃ r, neg_twiddle_root ((2 : ℝ) • bl 16) = some [r] := by
  have hσ : negSigma ((2 : ℝ) • bl 16) = (4 : ℝ) • unit_scalar_mv := by
    rw [negSigma_smul_bl16]
    norm_num
  have hp : check_sigma_for_positive_root (negSigma ((2 : ℝ) • bl 16)) := by
    rw [hσ]
    exact check_pos_scalar (by norm_num)
  exact ⟨hp, (claim1_case_routing ((2 : ℝ) • bl 16)).1.1 hp⟩

/-- C2 counterexample: at the Case A input `C = 2*e5` of `neg_twiddle_root`,
the returned root differs from the spec's formula
`(C + dorst_norm)/(sqrt(2)*sqrt(s0 + dorst_norm))` normalized (the code
instead returns `((1/positive_root(sigma))*C)` normalized). -/
theorem claim2_counterexample :
    check_sigma_for_positive_root (negSigma ((2 : ℝ) • bl 16)) ∧
    neg_twiddle_root ((2 : ℝ) • bl 16) ≠
      some [spec_case_a_root ((2 : ℝ) • bl 16) (negSigma ((2 : ℝ) • bl 16))] := by
  have hσ : negSigma ((2 : ℝ) • bl 16) = (4 : ℝ) • unit_scalar_mv := by
    rw [negSigma_smul_bl16]
    norm_num
  have hp : check_sigma_for_positive_root (negSigma ((2 : ℝ) • bl 16)) := by
    rw [hσ]
    exact check_pos_scalar (by norm_num)
  refine ⟨hp, ?_⟩
  intro heq
  rw [ntr_two_bl16] at heq
  have h2 : bl 16 = spec_case_a_root ((2 : ℝ) • bl 16) (negSigma ((2 : ℝ) • bl 16)) :=
    (List.cons.inj (Option.some.inj heq)).1
  rw [hσ] at h2
  have h3 := congrFun h2 (0 : Fin 32)
  rw [bl16_apply_zero] at h3
  exact absurd h3.symm (ne_of_gt specA_four_unit_pos)

/-- C2 as amended: in Case A each twiddle-root finder returns
`((1/positive_root(sigma))*C)` normalized, and in Case B it returns
`[((1/positive_root(sigma))*C).normal(), ((1/negative_root(sigma))*C).normal()]`
in that order, where `positive_root`/`negative_root` are
`(sigma ± dorst_norm)/(sqrt(2)*sqrt(s0 ± dorst_norm))`. -/
theorem claim2_amended_roots (C : MV) :
    (check_sigma_for_positive_root (negSigma C) →
      neg_twiddle_root C =
        some [normal (gmt (mvInv (positive_root (negSigma C))) C)]) ∧
    (¬check_sigma_for_positive_root (negSigma C) →
      check_sigma_for_negative_root (negSigma C) →
      neg_twiddle_root C =
        some [normal (gmt (mvInv (positive_root (negSigma C))) C),
              normal (gmt (mvInv (negative_root (negSigma C))) C)]) ∧
    (check_sigma_for_positive_root (posSigma C) →
      pos_twiddle_root C =
        some [normal (gmt (mvInv (positive_root (posSigma C))) C)]) ∧
    (¬check_sigma_for_positive_root (posSigma C) →
      check_sigma_for_negative_root (posSigma C) →
      pos_twiddle_root C =
        some [normal (gmt (mvInv (positive_root (posSigma C))) C),
              normal (gmt (mvInv (negative_root (posSigma C))) C)]) := by
  refine ⟨fun h => ?_, fun hn h => ?_, fun h => ?_, fun hn h => ?_⟩
  · rw [neg_twiddle_root, if_pos h]
  · rw [neg_twiddle_root, if_neg hn, if_pos h]
  · rw [pos_twiddle_root, if_pos h]
  · rw [pos_twiddle_root, if_neg hn, if_pos h]

/-- Witness for the amended C2: at `C = e5`, Case A of `neg_twiddle_root`
fires and the returned root is the amended formula. -/
theorem claim2_amended_roots_witness :
    check_sigma_for_positive_root (negSigma (bl 16)) ∧
    neg_twiddle_root (bl 16) =
      some [normal (gmt (mvInv (positive_root (negSigma (bl 16)))) (bl 16))] := by
  have hσ : negSigma (bl 16) = (1 : ℝ) • unit_scalar_mv := by
    have h := negSigma_smul_bl16 1
    rw [one_smul] at h
    rw [h, one_mul]
  have hp : check_sigma_for_positive_root (negSigma (bl 16)) := by
    rw [hσ]
    exact check_pos_scalar (by norm_num)
  exact ⟨hp, (claim2_amended_roots (bl 16)).1 hp⟩

/-- C3: each twiddle-root finder signals NoRootExists (models the raised
`ValueError`) exactly when its sigma satisfies `s0 + dorst_norm <= 0` and
`s0 - dorst_norm <= 0` and `s0 + dorst_norm >= 1e-10`; in particular it never
returns a numeric result there.  (Over exact reals this region is empty:
`s0 + dorst_norm <= 0` contradicts `s0 + dorst_norm >= 1e-10`, so the error
branch is unreachable.) -/
theorem claim3_no_root_exists (C : MV) :
    (neg_twiddle_root C = none ↔
      negSigma C 0 + dorst_norm_val (negSigma C) ≤ 0 ∧
      negSigma C 0 - dorst_norm_val (negSigma C) ≤ 0 ∧
      (1e-10 : ℝ) ≤ negSigma C 0 + dorst_norm_val (negSigma C)) ∧
    (pos_twiddle_root C = none ↔
      posSigma C 0 + dorst_norm_val (posSigma C) ≤ 0 ∧
      posSigma C 0 - dorst_norm_val (posSigma C) ≤ 0 ∧
      (1e-10 : ℝ) ≤ posSigma C 0 + dorst_norm_val (posSigma C)) :=
  ⟨noRoot_iff C (negSigma C), noRoot_iff C (posSigma C)⟩

/-- C4: if the sum of absolute coefficients of the bivector is below machine
epsilon, `ga_exp` returns the identity versor; in particular
`ga_exp 0 = unit_scalar_mv`. -/
theorem claim4_exp_identity :
    (∀ B : MV, (∑ k : Fin 32, |B k|) < machine_eps → ga_exp B = unit_scalar_mv) ∧
    ga_exp 0 = unit_scalar_mv := by
  have hz : (∑ k : Fin 32, |(0 : MV) k|) < machine_eps := by
    simp only [Pi.zero_apply, abs_zero, Finset.sum_const_zero]
    unfold machine_eps
    positivity
  exact ⟨fun B h => by rw [ga_exp, if_pos h], by rw [ga_exp, if_pos hz]⟩

/-- Witness for C4: the zero bivector is below machine epsilon and maps to
the identity versor. -/
theorem claim4_exp_identity_witness :
    (∑ k : Fin 32, |(0 : MV) k|) < machine_eps ∧ ga_exp 0 = unit_scalar_mv := by
  have hz : (∑ k : Fin 32, |(0 : MV) k|) < machine_eps := by
    simp only [Pi.zero_apply, abs_zero, Finset.sum_const_zero]
    unfold machine_eps
    positivity
  exact ⟨hz, claim4_exp_identity.1 0 hz⟩

/-- C5: for valid conformal objects (blades with a nonzero scalar
self-product `C*~C`, excluding null objects whose normalization is the
spec's DegenerateNormalization failure), `interp_objects_root` at `alpha = 1`
returns the normalized form of `C1` and at `alpha = 0` the normalized form of
`C2`. -/
theorem claim5_interp_boundary (C1 C2 : MV) (mu nu : ℝ)
    (h1 : gmt C1 (rev C1) = mu • unit_scalar_mv) (hm : mu ≠ 0)
    (h2 : gmt C2 (rev C2) = nu • unit_scalar_mv) (hn : nu ≠ 0) :
    interp_objects_root C1 C2 1 = some (normal C1) ∧
    interp_objects_root C1 C2 0 = some (normal C2) := by
  constructor
  · unfold interp_objects_root
    rw [show ((1 : ℝ) • C1 + (1 - (1 : ℝ)) • C2) = C1 from by
      rw [one_smul, sub_self, zero_smul, add_zero]]
    obtain ⟨r, l, hr, hnr⟩ := ntr_scalar_sigma h1 hm
    rw [hr]
    exact congrArg some hnr
  · unfold interp_objects_root
    rw [show ((0 : ℝ) • C1 + (1 - (0 : ℝ)) • C2) = C2 from by
      rw [zero_smul, sub_zero, one_smul, zero_add]]
    obtain ⟨r, l, hr, hnr⟩ := ntr_scalar_sigma h2 hn
    rw [hr]
    exact congrArg some hnr

/-- Witness for C5: at `C1 = 2*e5` and `C2 = e5` (self-products `-4` and
`-1`), interpolation at the boundaries returns the normalized endpoints. -/
theorem claim5_interp_boundary_witness :
    gmt ((2 : ℝ) • bl 16) (rev ((2 : ℝ) • bl 16)) = (-4 : ℝ) • unit_scalar_mv ∧
    gmt (bl 16) (rev (bl 16)) = (-1 : ℝ) • unit_scalar_mv ∧
    interp_objects_root ((2 : ℝ) • bl 16) (bl 16) 1 =
      some (normal ((2 : ℝ) • bl 16)) := by
  have h1 : gmt ((2 : ℝ) • bl 16) (rev ((2 : ℝ) • bl 16)) =
      (-4 : ℝ) • unit_scalar_mv := by
    rw [gmt_rev_smul_bl16]
    norm_num
  have h2 : gmt (bl 16) (rev (bl 16)) = (-1 : ℝ) • unit_scalar_mv := by
    rw [rev_bl_16, gmt_bl16_bl16]
  exact ⟨h1, h2,
    (claim5_interp_boundary _ _ _ _ h1 (by norm_num) h2 (by norm_num)).1⟩

/-- C6: for a valid object X (nonzero scalar self-product `X*~X`),
`average_objects [X, X]` equals the normalized form of X. -/
theorem claim6_average_fixed_point (X : MV) (mu : ℝ)
    (h : gmt X (rev X) = mu • unit_scalar_mv) (hm : mu ≠ 0) :
    average_objects [X, X] = some (normal X) := by
  unfold average_objects
  rw [show ((([X, X].length : ℝ))⁻¹ • ([X, X]).sum) = X from by
    simp only [List.length_cons, List.length_nil, List.sum_cons, List.sum_nil,
      add_zero, Nat.cast_ofNat]
    rw [← two_smul ℝ X, smul_smul]
    norm_num]
  obtain ⟨r, l, hr, hnr⟩ := ntr_scalar_sigma h hm
  rw [hr]
  exact congrArg some hnr

/-- Witness for C6: at `X = e5` (self-product `-1`), the two-element average
returns the normalized form of X. -/
theorem claim6_average_fixed_point_witness :
    gmt (bl 16) (rev (bl 16)) = (-1 : ℝ) • unit_scalar_mv ∧
    average_objects [bl 16, bl 16] = some (normal (bl 16)) := by
  have h2 : gmt (bl 16) (rev (bl 16)) = (-1 : ℝ) • unit_scalar_mv := by
    rw [rev_bl_16, gmt_bl16_bl16]
  exact ⟨h2, claim6_average_fixed_point _ _ h2 (by norm_num)⟩

/-- C7: `rotor_between_objects` matches the spec's description — the first
positive-twiddle root of `1 + C2*C1` when the scalar self-product of C1 is
positive, and `(1 - C2*C1)` normalized directly otherwise. -/
theorem claim7_rotor_between (C1 C2 : MV) :
    rotor_between_objects C1 C2 = rotor_between_spec C1 C2 ∧
    (0 < gmt C1 C1 0 → rotor_between_objects C1 C2 =
      (pos_twiddle_root (unit_scalar_mv + gmt C2 C1)).bind List.head?) ∧
    (¬0 < gmt C1 C1 0 → rotor_between_objects C1 C2 =
      some (normal (unit_scalar_mv - gmt C2 C1))) := by
  refine ⟨rfl, fun h => ?_, fun h => ?_⟩
  · rw [rotor_between_objects, if_pos h]
  · rw [rotor_between_objects, if_neg h]

/-- Witness for C7: `e1` has positive scalar self-product and takes the
root branch; `e5` has negative one and takes the direct branch. -/
theorem claim7_rotor_between_witness :
    (0 < gmt (bl 1) (bl 1) 0 ∧ rotor_between_objects (bl 1) (bl 16) =
      (pos_twiddle_root (unit_scalar_mv + gmt (bl 16) (bl 1))).bind List.head?) ∧
    (¬0 < gmt (bl 16) (bl 16) 0 ∧ rotor_between_objects (bl 16) (bl 1) =
      some (normal (unit_scalar_mv - gmt (bl 1) (bl 16)))) := by
  have h1 : gmt (bl 1) (bl 1) = unit_scalar_mv := by
    rw [gmt_bl_bl, show sgnB (1 : Fin 32).val (1 : Fin 32).val = false from by decide,
      pm1_false, one_smul, show bxor (1 : Fin 32) 1 = 0 from by decide]
    rfl
  have ha : 0 < gmt (bl 1) (bl 1) 0 := by
    rw [h1, unit_apply_zero]
    norm_num
  have hb : ¬0 < gmt (bl 16) (bl 16) 0 := by
    rw [gmt_bl16_bl16, smul_unit_apply_zero]
    norm_num
  exact ⟨⟨ha, (claim7_rotor_between (bl 1) (bl 16)).2.1 ha⟩,
    ⟨hb, (claim7_rotor_between (bl 16) (bl 1)).2.2 hb⟩⟩

/-- C8: the sandwich action is a (right) group action — applying R1 then R2
equals applying the composite `R2*R1`, for all multivectors, since the
adjoint is an anti-automorphism and the geometric product is associative. -/
theorem claim8_group_action (M R1 R2 : MV) :
    apply_rotor (apply_rotor M R1) R2 = apply_rotor M (gmt R2 R1) := by
  unfold apply_rotor
  rw [rev_gmt]
  simp only [gmt_assoc]

theorem project_val_eq_band (v : Fin 32 → ℝ) (g : ℤ) (h0 : 0 ≤ g) (h5 : g ≤ 5) :
    project_val v g = fun k => if inBand g k then v k else 0 := by
  funext k
  simp only [project_val, inBand]
  split_ifs <;> first | rfl | omega

/-- C9: for grades 0..5, grade projection is idempotent, copies the
coefficients inside the grade's band unchanged, and zeroes every coefficient
outside the band. -/
theorem claim9_projection_idempotent (v : Fin 32 → ℝ) (g : ℤ)
    (h0 : 0 ≤ g) (h5 : g ≤ 5) :
    project_val (project_val v g) g = project_val v g ∧
    (∀ k, inBand g k → project_val v g k = v k) ∧
    (∀ k, ¬inBand g k → project_val v g k = 0) := by
  have hb := project_val_eq_band v g h0 h5
  refine ⟨?_, fun k hk => ?_, fun k hk => ?_⟩
  · rw [hb, project_val_eq_band _ g h0 h5]
    funext k
    by_cases h : inBand g k <;> simp [h]
  · rw [hb]
    simp [hk]
  · rw [hb]
    simp [hk]

/-- Witness for C9: grade 2 on the all-ones array. -/
theorem claim9_projection_idempotent_witness :
    (0 : ℤ) ≤ 2 ∧ (2 : ℤ) ≤ 5 ∧
    project_val (project_val (fun _ => 1) 2) 2 = project_val (fun _ => 1) 2 :=
  ⟨by norm_num, by norm_num,
    (claim9_projection_idempotent (fun _ => 1) 2 (by norm_num) (by norm_num)).1⟩

/-- C10: for any grade outside [0,5], `project_val` is total and returns the
all-zero array, raising no error. -/
theorem claim10_projection_out_of_range (v : Fin 32 → ℝ) (g : ℤ)
    (hg : g < 0 ∨ 5 < g) :
    project_val v g = fun _ => (0 : ℝ) := by
  funext k
  simp only [project_val]
  rw [if_neg (by omega), if_neg (by omega), if_neg (by omega), if_neg (by omega),
    if_neg (by omega), if_neg (by omega)]

/-- Witness for C10: grade 6 on the all-ones array returns the zero array. -/
theorem claim10_projection_out_of_range_witness :
    ((6 : ℤ) < 0 ∨ 5 < (6 : ℤ)) ∧
    project_val (fun _ => 1) 6 = fun _ => (0 : ℝ) :=
  ⟨by norm_num, claim10_projection_out_of_range (fun _ => 1) 6 (by norm_num)⟩
